import Mathlib

/-!
Verification of the sequence-construction core of the multi-label disease
classification pipeline.

Shallow embedding of:
* `src/process/icd_normalize.py` (`normalize_icd`),
* `scripts/convert_mimic_to_events.py` (`norm_code`),
* `src/process/vocab.py` (`build_label_vocab`),
* `src/process/sequence.py` (`build_yearly_sequences`).

Strings are lists of characters; a Python fallible computation is an
`Except String` value whose error message records the exception the Python
code would raise.  A pandas dataframe of events is a list of records.
-/

namespace MedSeq

/-! ## Character classes used by the normalizers

`keepUpper` is the character class of the regex `[^A-Z0-9\.]` complement in
`normalize_icd`; `keepBoth` is the class of `[^A-Za-z0-9\.]` complement in
`norm_code`; `pyIsSpace` is the ASCII whitespace stripped by `str.strip()`.
Character ranges are expressed on code points (`'A'` = 65, `'Z'` = 90,
`'a'` = 97, `'z'` = 122, `'0'` = 48, `'9'` = 57, `'.'` = 46, `' '` = 32). -/

def pyIsSpace (c : Char) : Bool :=
  decide (c.toNat = 32 ∨ c.toNat = 9 ∨ c.toNat = 10 ∨ c.toNat = 13 ∨
          c.toNat = 11 ∨ c.toNat = 12)

def keepUpper (c : Char) : Bool :=
  decide ((65 ≤ c.toNat ∧ c.toNat ≤ 90) ∨ (48 ≤ c.toNat ∧ c.toNat ≤ 57) ∨ c.toNat = 46)

def keepBoth (c : Char) : Bool :=
  decide ((65 ≤ c.toNat ∧ c.toNat ≤ 90) ∨ (97 ≤ c.toNat ∧ c.toNat ≤ 122) ∨
          (48 ≤ c.toNat ∧ c.toNat ≤ 57) ∨ c.toNat = 46)

/-- Embedding of Python `str.strip()` on a list of characters. -/
def stripChars (l : List Char) : List Char :=
  ((l.dropWhile pyIsSpace).reverse.dropWhile pyIsSpace).reverse

/-- Embedding of `normalize_icd` from `src/process/icd_normalize.py`.
A non-string Python argument is `none`; it yields the empty string.
The pipeline follows the source line by line: `strip().upper().replace(" ", "")`,
then the regex removal of every character outside `[A-Z0-9.]`, then the
optional dot removal. -/
def normalize_icd (code : Option String) (system : String) (dotless : Bool) : String :=
  match code with
  | none => ""
  | some s =>
    let c1 := (stripChars s.data).map Char.toUpper
    let c2 := c1.filter (fun ch => decide (ch.toNat ≠ 32))
    let c3 := c2.filter keepUpper
    if dotless then String.mk (c3.filter (fun ch => decide (ch.toNat ≠ 46)))
    else String.mk c3

/-- Embedding of `norm_code` from `scripts/convert_mimic_to_events.py`:
`re.sub` of everything outside `[A-Za-z0-9.]` applied to `code.strip().upper()`,
then optional dot removal. -/
def norm_code (code : Option String) (dotless : Bool) : String :=
  match code with
  | none => ""
  | some s =>
    let c := ((stripChars s.data).map Char.toUpper).filter keepBoth
    if dotless then String.mk (c.filter (fun ch => decide (ch.toNat ≠ 46)))
    else String.mk c

/-! ## Unfolding equations for the two normalizers -/

theorem normalize_icd_none (sys : String) (dl : Bool) : normalize_icd none sys dl = "" := rfl

theorem normalize_icd_some_false (s sys : String) :
    normalize_icd (some s) sys false =
      String.mk (List.filter keepUpper
        (List.filter (fun ch => decide (ch.toNat ≠ 32))
          ((stripChars s.data).map Char.toUpper))) := rfl

theorem normalize_icd_some_true (s sys : String) :
    normalize_icd (some s) sys true =
      String.mk ((List.filter keepUpper
        (List.filter (fun ch => decide (ch.toNat ≠ 32))
          ((stripChars s.data).map Char.toUpper))).filter
            (fun ch => decide (ch.toNat ≠ 46))) := rfl

theorem norm_code_some_false (s : String) :
    norm_code (some s) false =
      String.mk (List.filter keepBoth ((stripChars s.data).map Char.toUpper)) := rfl

theorem norm_code_some_true (s : String) :
    norm_code (some s) true =
      String.mk ((List.filter keepBoth ((stripChars s.data).map Char.toUpper)).filter
        (fun ch => decide (ch.toNat ≠ 46))) := rfl

/-! ## Character-level lemmas -/

theorem char_toNat_ofNat {n : Nat} (h : n < 55296) : (Char.ofNat n).toNat = n := by
  have hv : n.isValidChar := Or.inl h
  rw [Char.ofNat, dif_pos hv]
  rfl

theorem toUpper_toNat (c : Char) :
    (Char.toUpper c).toNat =
      if 97 ≤ c.toNat ∧ c.toNat ≤ 122 then c.toNat - 32 else c.toNat := by
  rw [Char.toUpper]
  by_cases h : 97 ≤ c.toNat ∧ c.toNat ≤ 122
  · rw [if_pos ⟨h.1, h.2⟩, if_pos h]
    exact char_toNat_ofNat (by omega)
  · rw [if_neg (by exact fun hc => h ⟨hc.1, hc.2⟩), if_neg h]

theorem toUpper_eq_self {c : Char} (h : ¬(97 ≤ c.toNat ∧ c.toNat ≤ 122)) :
    Char.toUpper c = c := by
  rw [Char.toUpper, if_neg (by exact fun hc => h ⟨hc.1, hc.2⟩)]

theorem toUpper_not_lower (c : Char) :
    ¬(97 ≤ (Char.toUpper c).toNat ∧ (Char.toUpper c).toNat ≤ 122) := by
  rw [toUpper_toNat]
  by_cases h : 97 ≤ c.toNat ∧ c.toNat ≤ 122
  · rw [if_pos h]; omega
  · rw [if_neg h]; exact h

/-! ## List-level helper lemmas -/

theorem dropWhile_eq_self_of {p : Char → Bool} {l : List Char}
    (h : ∀ c ∈ l, p c = false) : l.dropWhile p = l := by
  cases l with
  | nil => rfl
  | cons x xs =>
    rw [List.dropWhile_cons, h x (by simp)]
    simp

theorem stripChars_eq_self {l : List Char} (h : ∀ c ∈ l, pyIsSpace c = false) :
    stripChars l = l := by
  unfold stripChars
  rw [dropWhile_eq_self_of h,
      dropWhile_eq_self_of (fun c hc => h c (List.mem_reverse.mp hc)),
      List.reverse_reverse]

theorem map_eq_self_of {f : Char → Char} {l : List Char}
    (h : ∀ c ∈ l, f c = c) : l.map f = l := by
  induction l with
  | nil => rfl
  | cons x xs ih =>
    rw [List.map_cons, h x (by simp), ih (fun c hc => h c (by simp [hc]))]

theorem mem_stripChars {l : List Char} {c : Char} (h : c ∈ stripChars l) : c ∈ l := by
  unfold stripChars at h
  have h1 := List.mem_reverse.mp h
  have h2 := (List.dropWhile_sublist pyIsSpace).mem h1
  have h3 := List.mem_reverse.mp h2
  exact (List.dropWhile_sublist pyIsSpace).mem h3

/-- Every character of a `normalize_icd` output is in the kept class, and is
not a dot when `dotless` was requested. -/
theorem mem_normalize_icd_chars {x : Option String} {sys : String} {dl : Bool} {ch : Char}
    (h : ch ∈ (normalize_icd x sys dl).data) :
    keepUpper ch = true ∧ (dl = true → ch.toNat ≠ 46) := by
  cases x with
  | none =>
    rw [normalize_icd_none] at h
    exact absurd h (List.not_mem_nil ch)
  | some s =>
    cases dl with
    | false =>
      rw [normalize_icd_some_false] at h
      have h' := List.mem_filter.mp h
      exact ⟨h'.2, by simp⟩
    | true =>
      rw [normalize_icd_some_true] at h
      have h' := List.mem_filter.mp h
      have h'' := List.mem_filter.mp h'.1
      refine ⟨h''.2, fun _ => ?_⟩
      have := h'.2
      simpa using this

theorem keepUpper_not_space {ch : Char} (h : keepUpper ch = true) :
    pyIsSpace ch = false := by
  simp only [keepUpper, decide_eq_true_eq] at h
  simp only [pyIsSpace, decide_eq_false_iff_not]
  omega

theorem keepUpper_not_lower {ch : Char} (h : keepUpper ch = true) :
    ¬(97 ≤ ch.toNat ∧ ch.toNat ≤ 122) := by
  simp only [keepUpper, decide_eq_true_eq] at h
  omega

/-- C9 auxiliary: the idempotence computation on the `some` case. -/
theorem normalize_icd_fix {r : String} {sys : String} {dl : Bool}
    (hch : ∀ ch ∈ r.data, keepUpper ch = true ∧ (dl = true → ch.toNat ≠ 46)) :
    normalize_icd (some r) sys dl = r := by
  have hstrip : stripChars r.data = r.data :=
    stripChars_eq_self (fun c hc => keepUpper_not_space (hch c hc).1)
  have hmap : (r.data.map Char.toUpper) = r.data :=
    map_eq_self_of (fun c hc => toUpper_eq_self (keepUpper_not_lower (hch c hc).1))
  have hsp : r.data.filter (fun ch => decide (ch.toNat ≠ 32)) = r.data := by
    refine List.filter_eq_self.mpr (fun c hc => ?_)
    have h1 := (hch c hc).1
    simp only [keepUpper, decide_eq_true_eq] at h1
    simp only [decide_eq_true_eq]
    omega
  have hku : r.data.filter keepUpper = r.data :=
    List.filter_eq_self.mpr (fun c hc => (hch c hc).1)
  cases dl with
  | false =>
    rw [normalize_icd_some_false, hstrip, hmap, hsp, hku]
  | true =>
    have hdot : r.data.filter (fun ch => decide (ch.toNat ≠ 46)) = r.data := by
      refine List.filter_eq_self.mpr (fun c hc => ?_)
      simp only [decide_eq_true_eq]
      exact (hch c hc).2 rfl
    rw [normalize_icd_some_true, hstrip, hmap, hsp, hku, hdot]

/-- C9: the normalizer is idempotent.  Feeding the (string) output of
`normalize_icd` back in, with the same `system` and `dotless` flag, returns
it unchanged; non-string inputs (`none`) normalize to the empty string and
stay there. -/
theorem C9_normalize_idempotent (code : Option String) (system : String) (dotless : Bool) :
    normalize_icd (some (normalize_icd code system dotless)) system dotless =
      normalize_icd code system dotless :=
  normalize_icd_fix (fun ch hch => mem_normalize_icd_chars hch)

/-- C10 auxiliary: on characters produced by `Char.toUpper`, the two kept
classes coincide once the explicit space of `replace(" ", "")` is folded in. -/
theorem keep_eq_on_upper (c : Char) :
    (keepUpper (Char.toUpper c) && decide ((Char.toUpper c).toNat ≠ 32)) =
      keepBoth (Char.toUpper c) := by
  have h3 := toUpper_not_lower c
  simp only [keepUpper, keepBoth, ← Bool.decide_and, decide_eq_decide]
  constructor
  · intro hc
    omega
  · intro hc
    omega

/-- C10: the two independently written normalizers compute the same function.
For every (possibly non-string) input, system tag and dot flag,
`normalize_icd` from the process module agrees with `norm_code` from the
MIMIC conversion script. -/
theorem C10_normalizers_agree (code : Option String) (system : String) (dotless : Bool) :
    normalize_icd code system dotless = norm_code code dotless := by
  cases code with
  | none => rfl
  | some s =>
    have key : List.filter keepUpper
          (List.filter (fun ch => decide (ch.toNat ≠ 32)) ((stripChars s.data).map Char.toUpper)) =
        List.filter keepBoth ((stripChars s.data).map Char.toUpper) := by
      rw [List.filter_filter]
      refine List.filter_congr (fun ch hch => ?_)
      rcases List.mem_map.mp hch with ⟨c0, _, rfl⟩
      exact keep_eq_on_upper c0
    cases dotless with
    | false => rw [normalize_icd_some_false, norm_code_some_false, key]
    | true => rw [normalize_icd_some_true, norm_code_some_true, key]

/-! ## Generic list machinery shared by the embeddings

`uniqA` embeds the first-occurrence deduplication of `pandas.Series.unique`;
`sortBy` is a deterministic (stable insertion) sort standing in for
`sort_values`, whose tie order the library leaves unspecified. -/

def uniqAux [DecidableEq α] (seen : List α) : List α → List α
  | [] => []
  | x :: xs => if x ∈ seen then uniqAux seen xs else x :: uniqAux (x :: seen) xs

def uniqA [DecidableEq α] (l : List α) : List α := uniqAux [] l

theorem mem_uniqAux [DecidableEq α] (l : List α) :
    ∀ (seen : List α) (a : α), a ∈ uniqAux seen l ↔ a ∈ l ∧ a ∉ seen := by
  induction l with
  | nil => intro seen a; simp [uniqAux]
  | cons x xs ih =>
    intro seen a
    rw [uniqAux]
    by_cases hx : x ∈ seen
    · rw [if_pos hx, ih]
      constructor
      · exact fun ⟨h1, h2⟩ => ⟨List.mem_cons_of_mem x h1, h2⟩
      · rintro ⟨h1, h2⟩
        rcases List.mem_cons.mp h1 with rfl | h1
        · exact absurd hx h2
        · exact ⟨h1, h2⟩
    · rw [if_neg hx]
      constructor
      · intro h
        rcases List.mem_cons.mp h with rfl | h
        · exact ⟨List.mem_cons_self a xs, hx⟩
        · have := (ih (x :: seen) a).mp h
          exact ⟨List.mem_cons_of_mem x this.1,
            fun hc => this.2 (List.mem_cons_of_mem x hc)⟩
      · rintro ⟨h1, h2⟩
        rcases List.mem_cons.mp h1 with rfl | h1
        · exact List.mem_cons_self a _
        · by_cases hax : a = x
          · subst hax; exact List.mem_cons_self a _
          · exact List.mem_cons_of_mem x ((ih (x :: seen) a).mpr
              ⟨h1, by simp [hax, h2]⟩)

theorem mem_uniqA [DecidableEq α] {l : List α} {a : α} : a ∈ uniqA l ↔ a ∈ l := by
  rw [uniqA, mem_uniqAux]
  simp

def insertBy (le : α → α → Bool) (x : α) : List α → List α
  | [] => [x]
  | y :: ys => if le x y then x :: y :: ys else y :: insertBy le x ys

def sortBy (le : α → α → Bool) (l : List α) : List α := l.foldr (insertBy le) []

theorem insertBy_perm (le : α → α → Bool) (x : α) (l : List α) :
    List.Perm (insertBy le x l) (x :: l) := by
  induction l with
  | nil => rfl
  | cons y ys ih =>
    rw [insertBy]
    by_cases h : le x y
    · rw [if_pos h]
    · rw [if_neg h]
      exact ((ih.cons y).trans (List.Perm.swap x y ys))

theorem sortBy_perm (le : α → α → Bool) (l : List α) : List.Perm (sortBy le l) l := by
  induction l with
  | nil => rfl
  | cons x xs ih =>
    exact (insertBy_perm le x (sortBy le xs)).trans (ih.cons x)

theorem mem_sortBy {le : α → α → Bool} {l : List α} {a : α} :
    a ∈ sortBy le l ↔ a ∈ l :=
  (sortBy_perm le l).mem_iff

/-! ## Data model: the unified event table

A record of the events table `patient_id, visit_date, code_norm` consumed by
`build_label_vocab` and `build_yearly_sequences`.  `visit_id` and
`coding_system` play no role in either function and are omitted. -/

structure Event where
  patient_id : String
  visit_date : String
  code_norm : String
deriving DecidableEq, Repr

/-! ## Vocabulary builder (`src/process/vocab.py`) -/

/-- Patient-level prevalence per code: the number of distinct patients that
have at least one event with the code (`groupby("code_norm")["patient_id"].nunique()`). -/
def distinctPatientCount (events : List Event) (c : String) : Nat :=
  (uniqA ((events.filter (fun e => decide (e.code_norm = c))).map (·.patient_id))).length

/-- Enumeration of a code list into (code, index) pairs starting at `i`,
embedding `{code: i for i, code in enumerate(...)}`. -/
def assignIdx : List String → Nat → List (String × Nat)
  | [], _ => []
  | c :: cs, i => (c, i) :: assignIdx cs (i + 1)

/-- The per-code prevalence series after `sort_values(ascending=False)`:
codes in first-occurrence order, stably sorted by descending distinct-patient
count (pandas leaves the tie order unspecified; the embedding fixes a
deterministic stable order). -/
def vocabSorted (events : List Event) : List String :=
  sortBy (fun a b => decide (distinctPatientCount events b ≤ distinctPatientCount events a))
    (uniqA (events.map (·.code_norm)))

/-- The retained codes: `grp = grp[grp >= min_patients]` then the optional
`grp.head(top_k)`. -/
def vocabKept (events : List Event) (min_patients : Nat) (top_k : Option Nat) : List String :=
  let grp := (vocabSorted events).filter
    (fun c => decide (min_patients ≤ distinctPatientCount events c))
  match top_k with
  | some k => grp.take k
  | none => grp

/-- Embedding of `build_label_vocab`: group by code, count distinct patients,
sort by descending count, drop codes below `min_patients`, optionally keep
the `top_k` head, and enumerate the survivors.  The optional JSON persistence
is I/O and out of scope. -/
def build_label_vocab (events : List Event) (min_patients : Nat) (top_k : Option Nat) :
    List (String × Nat) :=
  assignIdx (vocabKept events min_patients top_k) 0

theorem vocabKept_none (events : List Event) (m : Nat) :
    vocabKept events m none =
      (vocabSorted events).filter (fun c => decide (m ≤ distinctPatientCount events c)) := rfl

theorem vocabKept_some (events : List Event) (m k : Nat) :
    vocabKept events m (some k) =
      ((vocabSorted events).filter
        (fun c => decide (m ≤ distinctPatientCount events c))).take k := rfl

theorem mem_vocabKept_count {events : List Event} {m : Nat} {t : Option Nat} {c : String}
    (h : c ∈ vocabKept events m t) : m ≤ distinctPatientCount events c := by
  have h2 : c ∈ (vocabSorted events).filter
      (fun c => decide (m ≤ distinctPatientCount events c)) := by
    cases t with
    | none => rw [vocabKept_none] at h; exact h
    | some k => rw [vocabKept_some] at h; exact List.mem_of_mem_take h
  exact of_decide_eq_true (List.mem_filter.mp h2).2

theorem assignIdx_bounds {cs : List String} :
    ∀ {i : Nat} {p : String × Nat}, p ∈ assignIdx cs i → i ≤ p.2 ∧ p.2 < i + cs.length := by
  induction cs with
  | nil => intro i p h; exact absurd h (List.not_mem_nil p)
  | cons c cs ih =>
    intro i p h
    rcases List.mem_cons.mp h with rfl | h
    · simp
    · have := ih h
      simp only [List.length_cons]
      omega

theorem assignIdx_inj {cs : List String} :
    ∀ {i : Nat} {p q : String × Nat},
      p ∈ assignIdx cs i → q ∈ assignIdx cs i → p.2 = q.2 → p.1 = q.1 := by
  induction cs with
  | nil => intro i p q h; exact absurd h (List.not_mem_nil _)
  | cons c cs ih =>
    intro i p q h1 h2 hj
    rcases List.mem_cons.mp h1 with rfl | h1
    · rcases List.mem_cons.mp h2 with rfl | h2
      · rfl
      · have hb := assignIdx_bounds h2
        have hj' : i = q.2 := hj
        omega
    · rcases List.mem_cons.mp h2 with rfl | h2
      · have hb := assignIdx_bounds h1
        have hj' : p.2 = i := hj
        omega
      · exact ih h1 h2 hj

theorem assignIdx_surj {cs : List String} :
    ∀ {i j : Nat}, i ≤ j → j < i + cs.length → ∃ c, (c, j) ∈ assignIdx cs i := by
  induction cs with
  | nil => intro i j h1 h2; simp at h2; omega
  | cons c cs ih =>
    intro i j h1 h2
    by_cases hj : j = i
    · subst hj; exact ⟨c, List.mem_cons_self _ _⟩
    · have : i + 1 ≤ j := by omega
      have h2' : j < (i + 1) + cs.length := by
        simp only [List.length_cons] at h2; omega
      rcases ih this h2' with ⟨c', hc'⟩
      exact ⟨c', List.mem_cons_of_mem _ hc'⟩

theorem assignIdx_length (cs : List String) (i : Nat) :
    (assignIdx cs i).length = cs.length := by
  induction cs generalizing i with
  | nil => rfl
  | cons c cs ih => simp [assignIdx, ih]

theorem assignIdx_mem_fst {cs : List String} :
    ∀ {i : Nat} {p : String × Nat}, p ∈ assignIdx cs i → p.1 ∈ cs := by
  induction cs with
  | nil => intro i p h; exact absurd h (List.not_mem_nil p)
  | cons c cs ih =>
    intro i p h
    rcases List.mem_cons.mp h with rfl | h
    · exact List.mem_cons_self _ _
    · exact List.mem_cons_of_mem c (ih h)

/-- C7: `build_label_vocab` returns an injective mapping (distinct codes get
distinct indices), its indices are exactly the integers in `[0, K)` for `K`
the number of retained codes, and every code in its domain has
distinct-patient count at least `min_patients`. -/
theorem C7_vocab_wellformed (events : List Event) (min_patients : Nat) (top_k : Option Nat) :
    (∀ p ∈ build_label_vocab events min_patients top_k,
       ∀ q ∈ build_label_vocab events min_patients top_k, p.1 ≠ q.1 → p.2 ≠ q.2) ∧
    (∀ p ∈ build_label_vocab events min_patients top_k,
       p.2 < (build_label_vocab events min_patients top_k).length) ∧
    (∀ i, i < (build_label_vocab events min_patients top_k).length →
       ∃ p ∈ build_label_vocab events min_patients top_k, p.2 = i) ∧
    (∀ p ∈ build_label_vocab events min_patients top_k,
       min_patients ≤ distinctPatientCount events p.1) := by
  refine ⟨?_, ?_, ?_, ?_⟩
  · intro p hp q hq hne heq
    exact hne (assignIdx_inj hp hq heq)
  · intro p hp
    have hb := @assignIdx_bounds (vocabKept events min_patients top_k) _ _ hp
    have hl : (build_label_vocab events min_patients top_k).length =
        (vocabKept events min_patients top_k).length := assignIdx_length _ _
    omega
  · intro i hi
    have hl : (build_label_vocab events min_patients top_k).length =
        (vocabKept events min_patients top_k).length := assignIdx_length _ _
    rcases @assignIdx_surj (vocabKept events min_patients top_k) 0 i
      (Nat.zero_le i) (by omega) with ⟨c, hc⟩
    exact ⟨(c, i), hc, rfl⟩
  · intro p hp
    exact mem_vocabKept_count
      (@assignIdx_mem_fst (vocabKept events min_patients top_k) _ _ hp)

/-! ## Sequence builder (`src/process/sequence.py`)

`build_yearly_sequences(df_events, label_to_id, history_years, min_year,
max_year)` is embedded below.  A run that raises a Python exception is an
`Except.error` carrying the exception text.  The split cutoffs `train_until`
and `val_until` are free variables in the source (ambient configuration, see
the design notes of the module docstring); the embedding passes them as
explicit parameters.  Year derivation `pd.to_datetime(...).dt.year` is an
external library call and is passed in as `toYear`; an unparseable date is
`none` and the event is dropped. -/

/-- An event row after year derivation (`df["year"] = ...` followed by the
range filter). -/
structure YEvent where
  patient_id : String
  year : Int
  code_norm : String
deriving DecidableEq, Repr

/-- An output row of `build_yearly_sequences`. -/
structure Row where
  patient_id : String
  target_year : Int
  hist_years : List Int
  hist_codes : List (List String)
  target_multi_hot : List Nat
deriving DecidableEq, Repr

/-- Lines 44-46 of `sequence.py`: derive the year of every event and keep
events whose year parses and lies in `[min_year, max_year]`. -/
def deriveEvents (toYear : String → Option Int) (events : List Event)
    (min_year max_year : Int) : List YEvent :=
  events.filterMap fun e =>
    match toYear e.visit_date with
    | none => none
    | some y =>
      if min_year ≤ y ∧ y ≤ max_year then some ⟨e.patient_id, y, e.code_norm⟩ else none

/-- Dictionary lookup `label_to_id[c]` as an optional value;
`isin(label_to_id)` is `(vocabIdx vocab c).isSome`. -/
def vocabIdx (vocab : List (String × Nat)) (c : String) : Option Nat :=
  (vocab.find? (fun p => decide (p.1 = c))).map (·.2)

def inVocab (vocab : List (String × Nat)) (c : String) : Bool :=
  (vocabIdx vocab c).isSome

/-- Python `min` on a list: raises `ValueError` on an empty list. -/
def pyMin : List Int → Except String Int
  | [] => .error "ValueError: min() arg is an empty sequence"
  | x :: xs => .ok (xs.foldl min x)

/-- The loop `for c in target_codes: multi_hot[label_to_id[c]] = 1`.
A missing key would raise `KeyError`; an out-of-range index would raise
`IndexError` (Python list assignment does not grow the list). -/
def applyHots (vocab : List (String × Nat)) : List Nat → List String → Except String (List Nat)
  | mh, [] => .ok mh
  | mh, c :: cs =>
    match vocabIdx vocab c with
    | none => .error "KeyError"
    | some i =>
      if i < mh.length then applyHots vocab (mh.set i 1) cs
      else .error "IndexError: list assignment index out of range"

/-- Line 63: `g.loc[(g["year"] == Y) & (g["code_in_vocab"]), "code_norm"].unique().tolist()`. -/
def targetCodes (g : List YEvent) (vocab : List (String × Nat)) (Y : Int) : List String :=
  uniqA ((g.filter (fun e => decide (e.year = Y) && inVocab vocab e.code_norm)).map
    (·.code_norm))

/-- Lines 58-61: for each window year, the codes the patient had that year,
in event order (no deduplication). -/
def histOf (g : List YEvent) (w : List Int) : List (List String) :=
  w.map (fun y => (g.filter (fun e => decide (e.year = y))).map (·.code_norm))

/-- Line 55: `hist_window = list(range(Y - history_years, Y))`. -/
def histWindow (H Y : Int) : List Int :=
  (List.range H.toNat).map (fun (i : Nat) => Y - H + (i : Int))

/-- Lines 54-78, the body of the inner loop for one candidate target year:
window construction, the `min(hist_window) < min_year` history check
(`.ok none` is the `continue`), history assembly, target construction and the
multi-hot loop. -/
def buildRow (vocab : List (String × Nat)) (H min_year : Int) (g : List YEvent)
    (pid : String) (Y : Int) : Except String (Option Row) :=
  match pyMin (histWindow H Y) with
  | .error msg => .error msg
  | .ok m =>
    if m < min_year then .ok none
    else
      match applyHots vocab (List.replicate vocab.length 0) (targetCodes g vocab Y) with
      | .error msg => .error msg
      | .ok mh => .ok (some ⟨pid, Y, histWindow H Y, histOf g (histWindow H Y), mh⟩)

/-- The loop `for Y in years` over a patient's distinct years. -/
def rowsForYears (vocab : List (String × Nat)) (H min_year : Int) (g : List YEvent)
    (pid : String) : List Int → Except String (List Row)
  | [] => .ok []
  | Y :: ys =>
    match buildRow vocab H min_year g pid Y with
    | .error msg => .error msg
    | .ok none => rowsForYears vocab H min_year g pid ys
    | .ok (some r) =>
      match rowsForYears vocab H min_year g pid ys with
      | .error msg => .error msg
      | .ok rs => .ok (r :: rs)

/-- Line 52: `years = sorted(g["year"].unique().tolist())`, then the loop body. -/
def patientRows (vocab : List (String × Nat)) (H min_year : Int) (g : List YEvent)
    (pid : String) : Except String (List Row) :=
  rowsForYears vocab H min_year g pid
    (sortBy (fun a b => decide (a ≤ b)) (uniqA (g.map (·.year))))

/-- Line 51: the loop over `groupby("patient_id")` (row order is not a
correctness invariant; the embedding iterates patients in first-occurrence
order). -/
def rowsForPids (vocab : List (String × Nat)) (H min_year : Int) (df : List YEvent) :
    List String → Except String (List Row)
  | [] => .ok []
  | p :: ps =>
    match patientRows vocab H min_year (df.filter (fun e => decide (e.patient_id = p))) p with
    | .error msg => .error msg
    | .ok rs =>
      match rowsForPids vocab H min_year df ps with
      | .error msg => .error msg
      | .ok rest => .ok (rs ++ rest)

/-- All rows accumulated in `rows` before `pd.DataFrame(rows)` is built. -/
def emittedRows (toYear : String → Option Int) (events : List Event)
    (vocab : List (String × Nat)) (H min_year max_year : Int) : Except String (List Row) :=
  let df := deriveEvents toYear events min_year max_year
  rowsForPids vocab H min_year df (uniqA (df.map (·.patient_id)))

/-- Lines 80-87: `pd.DataFrame(rows)` followed by the three `target_year`
selections.  When `rows` is empty the dataframe has no columns at all and
`df_seqs["target_year"]` raises `KeyError`. -/
def build_yearly_sequences (toYear : String → Option Int) (events : List Event)
    (vocab : List (String × Nat)) (H min_year max_year train_until val_until : Int) :
    Except String (List Row × List Row × List Row) :=
  match emittedRows toYear events vocab H min_year max_year with
  | .error msg => .error msg
  | .ok all =>
    if all.isEmpty then .error "KeyError: target_year"
    else
      .ok (all.filter (fun r => decide (r.target_year ≤ train_until)),
           all.filter (fun r => decide (train_until < r.target_year ∧ r.target_year ≤ val_until)),
           all.filter (fun r => decide (val_until < r.target_year)))

/-- A concrete year-derivation function used for witnesses: the leading four
digits of an ISO date string. -/
def isoYear (s : String) : Option Int :=
  match (s.data.take 4).foldl
    (fun acc c =>
      match acc with
      | none => none
      | some n => if c.isDigit then some (n * 10 + (c.toNat - 48)) else none)
    (some 0) with
  | none => none
  | some n => some (n : Int)

/-- The group `g` of a patient inside the `groupby("patient_id")` loop. -/
def gOf (toYear : String → Option Int) (events : List Event) (min_year max_year : Int)
    (p : String) : List YEvent :=
  (deriveEvents toYear events min_year max_year).filter (fun e => decide (e.patient_id = p))

/-! ## Window lemmas -/

theorem mem_histWindow {H Y y : Int} :
    y ∈ histWindow H Y ↔ ∃ i : Nat, i < H.toNat ∧ y = Y - H + i := by
  unfold histWindow
  constructor
  · intro h
    rcases List.mem_map.mp h with ⟨i, hi, rfl⟩
    exact ⟨i, List.mem_range.mp hi, rfl⟩
  · rintro ⟨i, hi, rfl⟩
    exact List.mem_map.mpr ⟨i, List.mem_range.mpr hi, rfl⟩

theorem histWindow_length (H Y : Int) : (histWindow H Y).length = H.toNat := by
  unfold histWindow
  rw [List.length_map, List.length_range]

theorem histWindow_get (H Y : Int) (i : Nat) (hi : i < (histWindow H Y).length) :
    (histWindow H Y).get ⟨i, hi⟩ = Y - H + i := by
  have hi' : i < H.toNat := histWindow_length H Y ▸ hi
  unfold histWindow at hi ⊢
  simp only [List.get_eq_getElem, List.getElem_map, List.getElem_range]

theorem histWindow_pairwise (H Y : Int) : (histWindow H Y).Pairwise (· < ·) := by
  unfold histWindow
  rw [List.pairwise_map]
  exact (List.pairwise_lt_range H.toNat).imp (fun h => by omega)

theorem mem_histWindow_bounds {H Y y : Int} (h : y ∈ histWindow H Y) :
    Y - H ≤ y ∧ y < Y := by
  rcases mem_histWindow.mp h with ⟨i, hi, rfl⟩
  have h1 : (i : Int) < H := Int.lt_toNat.mp hi
  omega

theorem foldl_min_eq {x : Int} {l : List Int} (h : ∀ y ∈ l, x ≤ y) :
    l.foldl min x = x := by
  induction l generalizing x with
  | nil => rfl
  | cons y ys ih =>
    rw [List.foldl_cons, min_eq_left (h y (by simp))]
    exact ih (fun z hz => h z (by simp [hz]))

theorem pyMin_histWindow {H Y : Int} (hH : 0 < H) :
    pyMin (histWindow H Y) = .ok (Y - H) := by
  obtain ⟨n, hn⟩ : ∃ n, H.toNat = n + 1 := ⟨H.toNat - 1, by omega⟩
  unfold histWindow
  rw [hn, List.range_succ_eq_map, List.map_cons, pyMin]
  have h0 : Y - H + ((0 : Nat) : Int) = Y - H := by simp
  rw [h0]
  congr 1
  refine foldl_min_eq (fun y hy => ?_)
  rcases List.mem_map.mp hy with ⟨i, hi, rfl⟩
  rcases List.mem_map.mp hi with ⟨j, hj, rfl⟩
  have : ((Nat.succ j : Nat) : Int) = (j : Int) + 1 := by push_cast; ring
  omega

theorem pyMin_histWindow_error {H Y : Int} (hH : H ≤ 0) :
    pyMin (histWindow H Y) = .error "ValueError: min() arg is an empty sequence" := by
  have : H.toNat = 0 := by omega
  unfold histWindow
  rw [this]
  rfl

/-! ## Shape of a successful `buildRow` -/

theorem buildRow_ok_shape {vocab : List (String × Nat)} {H min_year : Int} {g : List YEvent}
    {pid : String} {Y : Int} {res : Option Row}
    (h : buildRow vocab H min_year g pid Y = .ok res) :
    ∃ m, pyMin (histWindow H Y) = .ok m ∧
      ((m < min_year ∧ res = none) ∨
       (¬(m < min_year) ∧
        ∃ mh, applyHots vocab (List.replicate vocab.length 0) (targetCodes g vocab Y) = .ok mh ∧
          res = some ⟨pid, Y, histWindow H Y, histOf g (histWindow H Y), mh⟩)) := by
  unfold buildRow at h
  split at h
  next msg heq => exact absurd h (by simp)
  next m heq =>
    refine ⟨m, heq, ?_⟩
    by_cases hlt : m < min_year
    · rw [if_pos hlt] at h
      injection h with h'
      exact Or.inl ⟨hlt, h'.symm⟩
    · rw [if_neg hlt] at h
      split at h
      next msg ha => exact absurd h (by simp)
      next mh ha =>
        injection h with h'
        exact Or.inr ⟨hlt, mh, ha, h'.symm⟩

theorem buildRow_error_of_nonpos {vocab : List (String × Nat)} {H min_year : Int}
    {g : List YEvent} {pid : String} {Y : Int} (hH : H ≤ 0) :
    buildRow vocab H min_year g pid Y =
      .error "ValueError: min() arg is an empty sequence" := by
  unfold buildRow
  rw [pyMin_histWindow_error hH]

theorem buildRow_ok_some_of {vocab : List (String × Nat)} {H min_year : Int} {g : List YEvent}
    {pid : String} {Y : Int} {res : Option Row}
    (h : buildRow vocab H min_year g pid Y = .ok res)
    (hH : 0 < H) (hmin : min_year ≤ Y - H) :
    ∃ mh, applyHots vocab (List.replicate vocab.length 0) (targetCodes g vocab Y) = .ok mh ∧
      res = some ⟨pid, Y, histWindow H Y, histOf g (histWindow H Y), mh⟩ := by
  rcases buildRow_ok_shape h with ⟨m, hm, hcase⟩
  rw [pyMin_histWindow hH] at hm
  have hm' : m = Y - H := (Except.ok.injEq .. ▸ hm.symm)
  rcases hcase with ⟨hlt, _⟩ | ⟨_, mh, ha, hres⟩
  · omega
  · exact ⟨mh, ha, hres⟩

theorem buildRow_ok_none_of {vocab : List (String × Nat)} {H min_year : Int} {g : List YEvent}
    {pid : String} {Y : Int} {res : Option Row}
    (h : buildRow vocab H min_year g pid Y = .ok res)
    (hH : 0 < H) (hmin : Y - H < min_year) : res = none := by
  rcases buildRow_ok_shape h with ⟨m, hm, hcase⟩
  rw [pyMin_histWindow hH] at hm
  have hm' : m = Y - H := (Except.ok.injEq .. ▸ hm.symm)
  rcases hcase with ⟨_, hres⟩ | ⟨hge, _⟩
  · exact hres
  · omega

/-! ## Characterization of the loops -/

theorem rowsForYears_ok_mem {vocab : List (String × Nat)} {H min_year : Int} {g : List YEvent}
    {pid : String} :
    ∀ {ys : List Int} {rs : List Row},
      rowsForYears vocab H min_year g pid ys = .ok rs →
      ∀ r : Row, (r ∈ rs ↔ ∃ Y ∈ ys, buildRow vocab H min_year g pid Y = .ok (some r)) := by
  intro ys
  induction ys with
  | nil =>
    intro rs h r
    rw [rowsForYears] at h
    injection h with h'
    simp [← h']
  | cons Y ys ih =>
    intro rs h r
    rw [rowsForYears] at h
    split at h
    next msg heq => exact absurd h (by simp)
    next heq =>
      rw [ih h r]
      constructor
      · rintro ⟨Y', hY', hb⟩
        exact ⟨Y', List.mem_cons_of_mem Y hY', hb⟩
      · rintro ⟨Y', hY', hb⟩
        rcases List.mem_cons.mp hY' with rfl | hY'
        · rw [heq] at hb
          exact absurd hb (by simp)
        · exact ⟨Y', hY', hb⟩
    next r0 heq =>
      split at h
      next msg heq2 => exact absurd h (by simp)
      next rs' heq2 =>
        injection h with h'
        subst h'
        constructor
        · intro hr
          rcases List.mem_cons.mp hr with rfl | hr
          · exact ⟨Y, List.mem_cons_self _ _, heq⟩
          · rcases (ih heq2 r).mp hr with ⟨Y', hY', hb⟩
            exact ⟨Y', List.mem_cons_of_mem Y hY', hb⟩
        · rintro ⟨Y', hY', hb⟩
          rcases List.mem_cons.mp hY' with rfl | hY'
          · rw [heq] at hb
            injection hb with hb'
            injection hb' with hb''
            exact hb'' ▸ List.mem_cons_self _ _
          · exact List.mem_cons_of_mem r0 ((ih heq2 r).mpr ⟨Y', hY', hb⟩)

theorem rowsForYears_ok_forced {vocab : List (String × Nat)} {H min_year : Int}
    {g : List YEvent} {pid : String} :
    ∀ {ys : List Int} {rs : List Row},
      rowsForYears vocab H min_year g pid ys = .ok rs →
      ∀ Y ∈ ys, ∃ res, buildRow vocab H min_year g pid Y = .ok res := by
  intro ys
  induction ys with
  | nil => intro rs _ Y hY; exact absurd hY (List.not_mem_nil Y)
  | cons Y0 ys ih =>
    intro rs h Y hY
    rw [rowsForYears] at h
    split at h
    next msg heq => exact absurd h (by simp)
    next heq =>
      rcases List.mem_cons.mp hY with rfl | hY
      · exact ⟨none, heq⟩
      · exact ih h Y hY
    next r0 heq =>
      split at h
      next msg heq2 => exact absurd h (by simp)
      next rs' heq2 =>
        rcases List.mem_cons.mp hY with rfl | hY
        · exact ⟨some r0, heq⟩
        · exact ih heq2 Y hY

theorem rowsForPids_ok_mem {vocab : List (String × Nat)} {H min_year : Int} {df : List YEvent} :
    ∀ {ps : List String} {rs : List Row},
      rowsForPids vocab H min_year df ps = .ok rs →
      ∀ r : Row, (r ∈ rs ↔ ∃ p ∈ ps, ∃ rsp,
        patientRows vocab H min_year (df.filter (fun e => decide (e.patient_id = p))) p = .ok rsp ∧
          r ∈ rsp) := by
  intro ps
  induction ps with
  | nil =>
    intro rs h r
    rw [rowsForPids] at h
    injection h with h'
    simp [← h']
  | cons p ps ih =>
    intro rs h r
    rw [rowsForPids] at h
    split at h
    next msg heq => exact absurd h (by simp)
    next rsp heq =>
      split at h
      next msg heq2 => exact absurd h (by simp)
      next rest heq2 =>
        injection h with h'
        subst h'
        constructor
        · intro hr
          rcases List.mem_append.mp hr with hr | hr
          · exact ⟨p, List.mem_cons_self _ _, rsp, heq, hr⟩
          · rcases (ih heq2 r).mp hr with ⟨p', hp', rsp', hh, hr'⟩
            exact ⟨p', List.mem_cons_of_mem p hp', rsp', hh, hr'⟩
        · rintro ⟨p', hp', rsp', hh, hr'⟩
          rcases List.mem_cons.mp hp' with rfl | hp'
          · rw [heq] at hh
            injection hh with hh'
            exact List.mem_append.mpr (Or.inl (hh' ▸ hr'))
          · exact List.mem_append.mpr (Or.inr ((ih heq2 r).mpr ⟨p', hp', rsp', hh, hr'⟩))

theorem rowsForPids_ok_forced {vocab : List (String × Nat)} {H min_year : Int}
    {df : List YEvent} :
    ∀ {ps : List String} {rs : List Row},
      rowsForPids vocab H min_year df ps = .ok rs →
      ∀ p ∈ ps, ∃ rsp,
        patientRows vocab H min_year (df.filter (fun e => decide (e.patient_id = p))) p =
          .ok rsp := by
  intro ps
  induction ps with
  | nil => intro rs _ p hp; exact absurd hp (List.not_mem_nil p)
  | cons p0 ps ih =>
    intro rs h p hp
    rw [rowsForPids] at h
    split at h
    next msg heq => exact absurd h (by simp)
    next rsp heq =>
      split at h
      next msg heq2 => exact absurd h (by simp)
      next rest heq2 =>
        rcases List.mem_cons.mp hp with rfl | hp
        · exact ⟨rsp, heq⟩
        · exact ih heq2 p hp

/-! ## Characterization of `emittedRows` -/

theorem patientRows_years {g : List YEvent} {Y : Int} :
    Y ∈ sortBy (fun a b => decide (a ≤ b)) (uniqA (g.map (·.year))) ↔
      ∃ e ∈ g, e.year = Y := by
  rw [mem_sortBy, mem_uniqA]
  constructor
  · intro h
    rcases List.mem_map.mp h with ⟨e, he, hYe⟩
    exact ⟨e, he, hYe⟩
  · rintro ⟨e, he, hYe⟩
    exact List.mem_map.mpr ⟨e, he, hYe⟩

theorem mem_gOf (toYear : String → Option Int) (events : List Event) (min_year max_year : Int)
    (p : String) (e : YEvent) :
    e ∈ gOf toYear events min_year max_year p ↔
      e ∈ deriveEvents toYear events min_year max_year ∧ e.patient_id = p := by
  unfold gOf
  rw [List.mem_filter]
  simp

theorem mem_emittedRows_iff {toYear : String → Option Int} {events : List Event}
    {vocab : List (String × Nat)} {H min_year max_year : Int} {all : List Row}
    (hok : emittedRows toYear events vocab H min_year max_year = .ok all) (r : Row) :
    r ∈ all ↔ ∃ p Y,
      (∃ e ∈ deriveEvents toYear events min_year max_year, e.patient_id = p ∧ e.year = Y) ∧
      buildRow vocab H min_year (gOf toYear events min_year max_year p) p Y = .ok (some r) := by
  unfold emittedRows at hok
  rw [rowsForPids_ok_mem hok r]
  constructor
  · rintro ⟨p, hp, rsp, hpr, hr⟩
    unfold patientRows at hpr
    rcases (rowsForYears_ok_mem hpr r).mp hr with ⟨Y, hY, hb⟩
    rcases patientRows_years.mp hY with ⟨e, he, hYe⟩
    have he' := (mem_gOf toYear events min_year max_year _ _).mp he
    have hb' : buildRow vocab H min_year (gOf toYear events min_year max_year p) p Y =
        .ok (some r) := hb
    exact ⟨p, Y, ⟨e, he'.1, he'.2, hYe⟩, hb'⟩
  · rintro ⟨p, Y, ⟨e, he, hpe, hYe⟩, hb⟩
    have hp : p ∈ uniqA ((deriveEvents toYear events min_year max_year).map (·.patient_id)) :=
      mem_uniqA.mpr (List.mem_map.mpr ⟨e, he, hpe⟩)
    rcases rowsForPids_ok_forced hok p hp with ⟨rsp, hpr⟩
    refine ⟨p, hp, rsp, hpr, ?_⟩
    unfold patientRows at hpr
    have hb' : buildRow vocab H min_year
        ((deriveEvents toYear events min_year max_year).filter
          (fun e => decide (e.patient_id = p))) p Y = .ok (some r) := hb
    refine (rowsForYears_ok_mem hpr r).mpr ⟨Y, ?_, hb'⟩
    exact patientRows_years.mpr ⟨e, (mem_gOf toYear events min_year max_year _ _).mpr ⟨he, hpe⟩, hYe⟩

theorem emittedRows_forced {toYear : String → Option Int} {events : List Event}
    {vocab : List (String × Nat)} {H min_year max_year : Int} {all : List Row}
    (hok : emittedRows toYear events vocab H min_year max_year = .ok all)
    {p : String} {Y : Int}
    (hcand : ∃ e ∈ deriveEvents toYear events min_year max_year,
      e.patient_id = p ∧ e.year = Y) :
    ∃ res, buildRow vocab H min_year (gOf toYear events min_year max_year p) p Y =
      .ok res := by
  unfold emittedRows at hok
  rcases hcand with ⟨e, he, hpe, hYe⟩
  have hp : p ∈ uniqA ((deriveEvents toYear events min_year max_year).map (·.patient_id)) :=
    mem_uniqA.mpr (List.mem_map.mpr ⟨e, he, hpe⟩)
  rcases rowsForPids_ok_forced hok p hp with ⟨rsp, hpr⟩
  unfold patientRows at hpr
  have h := rowsForYears_ok_forced hpr Y
    (patientRows_years.mpr ⟨e, (mem_gOf toYear events min_year max_year _ _).mpr ⟨he, hpe⟩, hYe⟩)
  exact h

/-! ## Target codes and the multi-hot vector -/

theorem mem_targetCodes {g : List YEvent} {vocab : List (String × Nat)} {Y : Int}
    {c : String} :
    c ∈ targetCodes g vocab Y ↔
      ∃ e ∈ g, e.year = Y ∧ inVocab vocab e.code_norm = true ∧ e.code_norm = c := by
  unfold targetCodes
  rw [mem_uniqA]
  constructor
  · intro h
    rcases List.mem_map.mp h with ⟨e, he, hc⟩
    have he' := List.mem_filter.mp he
    have hcond := he'.2
    simp only [Bool.and_eq_true, decide_eq_true_eq] at hcond
    exact ⟨e, he'.1, hcond.1, hcond.2, hc⟩
  · rintro ⟨e, he, hY, hv, hc⟩
    refine List.mem_map.mpr ⟨e, List.mem_filter.mpr ⟨he, ?_⟩, hc⟩
    simp only [Bool.and_eq_true, decide_eq_true_eq]
    exact ⟨hY, hv⟩

theorem applyHots_length {vocab : List (String × Nat)} :
    ∀ {cs : List String} {mh mh' : List Nat},
      applyHots vocab mh cs = .ok mh' → mh'.length = mh.length := by
  intro cs
  induction cs with
  | nil =>
    intro mh mh' h
    rw [applyHots] at h
    injection h with h'
    rw [h']
  | cons c cs ih =>
    intro mh mh' h
    rw [applyHots] at h
    split at h
    next heq => exact absurd h (by simp)
    next i heq =>
      split at h
      next hlt => rw [ih h, List.length_set]
      next hlt => exact absurd h (by simp)

theorem applyHots_get {vocab : List (String × Nat)} :
    ∀ {cs : List String} {mh mh' : List Nat},
      applyHots vocab mh cs = .ok mh' →
      ∀ (i : Nat) (hi : i < mh'.length) (hi2 : i < mh.length),
        (mh'.get ⟨i, hi⟩ = 1 ↔
          mh.get ⟨i, hi2⟩ = 1 ∨ ∃ c ∈ cs, vocabIdx vocab c = some i) := by
  intro cs
  induction cs with
  | nil =>
    intro mh mh' h i hi hi2
    rw [applyHots] at h
    injection h with h'
    subst h'
    simp
  | cons c cs ih =>
    intro mh mh' h i hi hi2
    rw [applyHots] at h
    split at h
    next heq => exact absurd h (by simp)
    next j heq =>
      split at h
      next hlt =>
        have hi2' : i < (mh.set j 1).length := by rw [List.length_set]; exact hi2
        rw [ih h i hi hi2']
        have hset : (mh.set j 1).get ⟨i, hi2'⟩ = if j = i then 1 else mh.get ⟨i, hi2⟩ := by
          simp only [List.get_eq_getElem, List.getElem_set]
        by_cases hji : j = i
        · subst hji
          rw [hset]
          simp only [if_pos rfl]
          constructor
          · intro _
            exact Or.inr ⟨c, List.mem_cons_self _ _, heq⟩
          · intro _
            exact Or.inl rfl
        · rw [hset, if_neg hji]
          constructor
          · rintro (h1 | ⟨c', hc', hv⟩)
            · exact Or.inl h1
            · exact Or.inr ⟨c', List.mem_cons_of_mem c hc', hv⟩
          · rintro (h1 | ⟨c', hc', hv⟩)
            · exact Or.inl h1
            · rcases List.mem_cons.mp hc' with rfl | hc'
              · rw [heq] at hv
                injection hv with hv'
                exact absurd hv' hji
              · exact Or.inr ⟨c', hc', hv⟩
      next hlt => exact absurd h (by simp)

theorem replicate_get_ne_one {K i : Nat} (hi : i < (List.replicate K (0 : Nat)).length) :
    ¬((List.replicate K (0 : Nat)).get ⟨i, hi⟩ = 1) := by
  simp [List.get_eq_getElem, List.getElem_replicate]

/-- Every row of a successful run is the structure literal produced by
`buildRow` for a candidate (patient, target year) pair that passed the
history check; in particular a successful run with at least one row forces a
positive history length. -/
theorem mem_all_shape {toYear : String → Option Int} {events : List Event}
    {vocab : List (String × Nat)} {H min_year max_year : Int} {all : List Row}
    (hok : emittedRows toYear events vocab H min_year max_year = .ok all)
    {r : Row} (hr : r ∈ all) :
    ∃ p Y mh,
      r = ⟨p, Y, histWindow H Y,
        histOf (gOf toYear events min_year max_year p) (histWindow H Y), mh⟩ ∧
      0 < H ∧ min_year ≤ Y - H ∧
      applyHots vocab (List.replicate vocab.length 0)
        (targetCodes (gOf toYear events min_year max_year p) vocab Y) = .ok mh ∧
      ∃ e ∈ deriveEvents toYear events min_year max_year,
        e.patient_id = p ∧ e.year = Y := by
  rcases (mem_emittedRows_iff hok r).mp hr with ⟨p, Y, hcand, hb⟩
  rcases buildRow_ok_shape hb with ⟨m, hm, hcase⟩
  have hH : 0 < H := by
    by_contra hneg
    rw [pyMin_histWindow_error (by omega)] at hm
    exact absurd hm (by simp)
  rw [pyMin_histWindow hH] at hm
  injection hm with hm'
  subst hm'
  rcases hcase with ⟨_, hres⟩ | ⟨hge, mh, ha, hres⟩
  · exact absurd hres (by simp)
  · injection hres with hres'
    exact ⟨p, Y, mh, hres', hH, by omega, ha, hcand⟩

/-- C1: an example is emitted for a candidate (patient, Y) pair iff the
window start `Y - H` does not fall below `min_year` (strict `<` check, so the
boundary `Y - H = min_year` is included); every emitted example's
`hist_years` is exactly `[Y-H, ..., Y-1]`: strictly increasing, of length
`H`, with no value below `min_year`. -/
theorem C1_window_contiguity (toYear : String → Option Int) (events : List Event)
    (vocab : List (String × Nat)) (H min_year max_year : Int) (all : List Row)
    (hH : 0 < H)
    (hok : emittedRows toYear events vocab H min_year max_year = .ok all) :
    (∀ p Y,
      (∃ e ∈ deriveEvents toYear events min_year max_year,
        e.patient_id = p ∧ e.year = Y) →
      ((∃ r ∈ all, r.patient_id = p ∧ r.target_year = Y) ↔ min_year ≤ Y - H)) ∧
    (∀ r ∈ all,
      r.hist_years = histWindow H r.target_year ∧
      (r.hist_years.length : Int) = H ∧
      r.hist_years.Pairwise (· < ·) ∧
      ∀ y ∈ r.hist_years, min_year ≤ y) := by
  constructor
  · intro p Y hcand
    constructor
    · rintro ⟨r, hr, hpid, hty⟩
      rcases mem_all_shape hok hr with ⟨p', Y', mh, hshape, _, hmin, _, _⟩
      have hty' : r.target_year = Y' := by rw [hshape]
      omega
    · intro hmin
      rcases emittedRows_forced hok hcand with ⟨res, hb⟩
      rcases buildRow_ok_some_of hb hH (by omega) with ⟨mh, _, hres⟩
      subst hres
      refine ⟨⟨p, Y, histWindow H Y,
        histOf (gOf toYear events min_year max_year p) (histWindow H Y), mh⟩, ?_, rfl, rfl⟩
      exact (mem_emittedRows_iff hok _).mpr ⟨p, Y, hcand, hb⟩
  · intro r hr
    rcases mem_all_shape hok hr with ⟨p, Y, mh, rfl, _, hmin, _, _⟩
    refine ⟨rfl, ?_, histWindow_pairwise H Y, ?_⟩
    · show ((histWindow H Y).length : Int) = H
      rw [histWindow_length]
      exact Int.toNat_of_nonneg hH.le
    · intro y hy
      have hb := mem_histWindow_bounds hy
      omega

/-- C2: under `train_until < val_until`, the three returned sets are exactly
the emitted examples with `target_year <= train_until`, with
`train_until < target_year <= val_until`, and with `target_year > val_until`
respectively, and every emitted example lies in exactly one of them. -/
theorem C2_split_partition (toYear : String → Option Int) (events : List Event)
    (vocab : List (String × Nat))
    (H min_year max_year train_until val_until : Int)
    (all tr va te : List Row)
    (hsplit : train_until < val_until)
    (hall : emittedRows toYear events vocab H min_year max_year = .ok all)
    (hok : build_yearly_sequences toYear events vocab H min_year max_year train_until
      val_until = .ok (tr, va, te)) :
    (∀ r, r ∈ tr ↔ r ∈ all ∧ r.target_year ≤ train_until) ∧
    (∀ r, r ∈ va ↔ r ∈ all ∧ train_until < r.target_year ∧ r.target_year ≤ val_until) ∧
    (∀ r, r ∈ te ↔ r ∈ all ∧ val_until < r.target_year) ∧
    (∀ r ∈ all,
      (r ∈ tr ∧ r ∉ va ∧ r ∉ te) ∨ (r ∉ tr ∧ r ∈ va ∧ r ∉ te) ∨
      (r ∉ tr ∧ r ∉ va ∧ r ∈ te)) := by
  unfold build_yearly_sequences at hok
  split at hok
  next msg heq => rw [hall] at heq; exact absurd heq (by simp)
  next all' heq =>
    rw [hall] at heq
    injection heq with heq'
    subst heq'
    split at hok
    next he => exact absurd hok (by simp)
    next he =>
      injection hok with hok'
      have h1 : tr = all.filter (fun r => decide (r.target_year ≤ train_until)) :=
        (Prod.mk.injEq .. ▸ hok').1.symm
      have h23 := (Prod.mk.injEq .. ▸ hok').2
      have h2 : va = all.filter
          (fun r => decide (train_until < r.target_year ∧ r.target_year ≤ val_until)) :=
        (Prod.mk.injEq .. ▸ h23).1.symm
      have h3 : te = all.filter (fun r => decide (val_until < r.target_year)) :=
        (Prod.mk.injEq .. ▸ h23).2.symm
      have htr : ∀ r, r ∈ tr ↔ r ∈ all ∧ r.target_year ≤ train_until := by
        intro r
        rw [h1, List.mem_filter]
        simp
      have hva : ∀ r, r ∈ va ↔ r ∈ all ∧ train_until < r.target_year ∧
          r.target_year ≤ val_until := by
        intro r
        rw [h2, List.mem_filter]
        simp
      have hte : ∀ r, r ∈ te ↔ r ∈ all ∧ val_until < r.target_year := by
        intro r
        rw [h3, List.mem_filter]
        simp
      refine ⟨htr, hva, hte, ?_⟩
      intro r hr
      by_cases c1 : r.target_year ≤ train_until
      · refine Or.inl ⟨(htr r).mpr ⟨hr, c1⟩, fun hv => ?_, fun ht => ?_⟩
        · have := (hva r).mp hv
          omega
        · have := (hte r).mp ht
          omega
      · by_cases c2 : r.target_year ≤ val_until
        · refine Or.inr (Or.inl ⟨fun htt => ?_, (hva r).mpr ⟨hr, by omega, c2⟩,
            fun ht => ?_⟩)
          · have := (htr r).mp htt
            omega
          · have := (hte r).mp ht
            omega
        · refine Or.inr (Or.inr ⟨fun htt => ?_, fun hv => ?_,
            (hte r).mpr ⟨hr, by omega⟩⟩)
          · have := (htr r).mp htt
            omega
          · have := (hva r).mp hv
            omega

/-- C3: every emitted example's `target_multi_hot` has length `K = |vocab|`
and its 1-entries are exactly the vocabulary indices of the distinct
in-vocabulary codes the patient had in the target year; a candidate pair
whose in-vocabulary target-code set is empty is still emitted (so its vector
is all zeros by the characterization). -/
theorem C3_multi_hot_correct (toYear : String → Option Int) (events : List Event)
    (vocab : List (String × Nat)) (H min_year max_year : Int) (all : List Row)
    (hok : emittedRows toYear events vocab H min_year max_year = .ok all) :
    (∀ r ∈ all,
      r.target_multi_hot.length = vocab.length ∧
      ∀ (i : Nat) (hi : i < r.target_multi_hot.length),
        (r.target_multi_hot.get ⟨i, hi⟩ = 1 ↔
          ∃ c, vocabIdx vocab c = some i ∧
            ∃ e ∈ deriveEvents toYear events min_year max_year,
              e.patient_id = r.patient_id ∧ e.year = r.target_year ∧
              e.code_norm = c)) ∧
    (∀ p Y, 0 < H →
      (∃ e ∈ deriveEvents toYear events min_year max_year,
        e.patient_id = p ∧ e.year = Y) →
      min_year ≤ Y - H →
      ∃ r ∈ all, r.patient_id = p ∧ r.target_year = Y) := by
  constructor
  · intro r hr
    rcases mem_all_shape hok hr with ⟨p, Y, mh, rfl, _, _, ha, _⟩
    have hlen : mh.length = vocab.length := by
      rw [applyHots_length ha, List.length_replicate]
    refine ⟨hlen, ?_⟩
    intro i hi
    have hi2 : i < (List.replicate vocab.length (0 : Nat)).length := by
      rw [List.length_replicate]
      exact hlen ▸ hi
    rw [applyHots_get ha i hi hi2]
    constructor
    · rintro (h0 | ⟨c, hc, hidx⟩)
      · exact absurd h0 (replicate_get_ne_one hi2)
      · rcases mem_targetCodes.mp hc with ⟨e, heg, hYe, _, hcode⟩
        have he' := (mem_gOf toYear events min_year max_year _ _).mp heg
        exact ⟨c, hidx, e, he'.1, he'.2, hYe, hcode⟩
    · rintro ⟨c, hidx, e, hedf, hpid, hyear, hcode⟩
      refine Or.inr ⟨c, mem_targetCodes.mpr ⟨e, (mem_gOf toYear events min_year max_year _ _).mpr
        ⟨hedf, hpid⟩, hyear, ?_, hcode⟩, hidx⟩
      rw [hcode]
      unfold inVocab
      rw [hidx]
      rfl
  · intro p Y hH hcand hmin
    rcases emittedRows_forced hok hcand with ⟨res, hb⟩
    rcases buildRow_ok_some_of hb hH (by omega) with ⟨mh, _, hres⟩
    subst hres
    refine ⟨⟨p, Y, histWindow H Y,
      histOf (gOf toYear events min_year max_year p) (histWindow H Y), mh⟩, ?_, rfl, rfl⟩
    exact (mem_emittedRows_iff hok _).mpr ⟨p, Y, hcand, hb⟩

/-- C6: every code in `hist_codes[i]` of an emitted example comes from an
event of the same patient whose derived year is exactly `hist_years[i]`,
which lies in `[target_year - H, target_year - 1]`; no history code
originates from an event dated in year `>= target_year`. -/
theorem C6_no_future_leakage (toYear : String → Option Int) (events : List Event)
    (vocab : List (String × Nat)) (H min_year max_year : Int) (all : List Row)
    (hok : emittedRows toYear events vocab H min_year max_year = .ok all) :
    ∀ r ∈ all,
      r.hist_codes.length = r.hist_years.length ∧
      ∀ (i : Nat) (hi : i < r.hist_years.length) (hi2 : i < r.hist_codes.length),
        ∀ c ∈ r.hist_codes.get ⟨i, hi2⟩,
          ∃ e ∈ deriveEvents toYear events min_year max_year,
            e.patient_id = r.patient_id ∧ e.code_norm = c ∧
            e.year = r.hist_years.get ⟨i, hi⟩ ∧
            r.target_year - H ≤ e.year ∧ e.year < r.target_year := by
  intro r hr
  rcases mem_all_shape hok hr with ⟨p, Y, mh, rfl, _, _, _, _⟩
  constructor
  · show (histOf (gOf toYear events min_year max_year p) (histWindow H Y)).length =
      (histWindow H Y).length
    unfold histOf
    rw [List.length_map]
  · intro i hi hi2 c hc
    have hw : (histOf (gOf toYear events min_year max_year p) (histWindow H Y)).get
        ⟨i, hi2⟩ =
        ((gOf toYear events min_year max_year p).filter
          (fun e => decide (e.year = (histWindow H Y).get ⟨i, hi⟩))).map (·.code_norm) := by
      unfold histOf
      simp only [List.get_eq_getElem, List.getElem_map]
    rw [hw] at hc
    rcases List.mem_map.mp hc with ⟨e, he, hcode⟩
    have he' := List.mem_filter.mp he
    have hyear : e.year = (histWindow H Y).get ⟨i, hi⟩ := of_decide_eq_true he'.2
    have hg := (mem_gOf toYear events min_year max_year _ _).mp he'.1
    have hmem : (histWindow H Y).get ⟨i, hi⟩ ∈ histWindow H Y :=
      List.get_mem (histWindow H Y) i hi
    have hb := mem_histWindow_bounds hmem
    refine ⟨e, hg.1, hg.2, hcode, hyear, ?_, ?_⟩
    · show Y - H ≤ e.year
      omega
    · show e.year < Y
      omega

/-- C8: a code outside the vocabulary still lands in `hist_codes` at the
window position of its event year (history is not filtered by the
vocabulary), while every 1-entry of the multi-hot vector is the index of
some in-vocabulary code, which is therefore never the out-of-vocabulary
code. -/
theorem C8_history_unfiltered (toYear : String → Option Int) (events : List Event)
    (vocab : List (String × Nat)) (H min_year max_year : Int) (all : List Row)
    (c : String)
    (hok : emittedRows toYear events vocab H min_year max_year = .ok all)
    (hnv : vocabIdx vocab c = none) :
    ∀ r ∈ all,
      (∀ e ∈ deriveEvents toYear events min_year max_year,
        e.patient_id = r.patient_id → e.code_norm = c →
        ∀ (i : Nat) (hi : i < r.hist_years.length) (hi2 : i < r.hist_codes.length),
          r.hist_years.get ⟨i, hi⟩ = e.year → c ∈ r.hist_codes.get ⟨i, hi2⟩) ∧
      (∀ (i : Nat) (hi : i < r.target_multi_hot.length),
        r.target_multi_hot.get ⟨i, hi⟩ = 1 →
          ∃ c', vocabIdx vocab c' = some i ∧ c' ≠ c) := by
  intro r hr
  rcases mem_all_shape hok hr with ⟨p, Y, mh, rfl, _, _, ha, _⟩
  constructor
  · intro e hedf hpid hcode i hi hi2 hyear
    have hw : (histOf (gOf toYear events min_year max_year p) (histWindow H Y)).get
        ⟨i, hi2⟩ =
        ((gOf toYear events min_year max_year p).filter
          (fun e => decide (e.year = (histWindow H Y).get ⟨i, hi⟩))).map (·.code_norm) := by
      unfold histOf
      simp only [List.get_eq_getElem, List.getElem_map]
    rw [hw]
    refine List.mem_map.mpr ⟨e, List.mem_filter.mpr ⟨?_, ?_⟩, hcode⟩
    · exact (mem_gOf toYear events min_year max_year _ _).mpr ⟨hedf, hpid⟩
    · exact decide_eq_true hyear.symm
  · intro i hi h1
    have hlen : mh.length = vocab.length := by
      rw [applyHots_length ha, List.length_replicate]
    have hi2 : i < (List.replicate vocab.length (0 : Nat)).length := by
      rw [List.length_replicate]
      exact hlen ▸ hi
    rcases (applyHots_get ha i hi hi2).mp h1 with h0 | ⟨c', hc', hidx⟩
    · exact absurd h0 (replicate_get_ne_one hi2)
    · refine ⟨c', hidx, fun hcc => ?_⟩
      rw [hcc, hnv] at hidx
      exact absurd hidx (by simp)

/-! ## Behaviour at the failing inputs of C4 and C5 -/

/-- C4, failing input: on an empty event table the Python source raises
`KeyError` instead of returning three empty sets, because `rows == []` makes
`pd.DataFrame(rows)` an empty frame with no columns, so the split selection
`df_seqs["target_year"]` fails.  The embedding records that exception. -/
theorem C4_empty_events_keyerror :
    build_yearly_sequences isoYear [] [("Z", 0)] 2 2017 2025 2018 2019 =
      .error "KeyError: target_year" := rfl

/-- C4, second half: an empty vocabulary with a non-empty event table does
return three well-defined sets (with width-0 multi-hot vectors). -/
theorem C4_empty_vocab_ok :
    build_yearly_sequences isoYear
      [⟨"P", "2018-01-01", "X"⟩, ⟨"P", "2019-01-01", "Y"⟩] [] 1 2017 2025 2018 2019 =
      .ok ([⟨"P", 2018, [2017], [[]], []⟩], [⟨"P", 2019, [2018], [["X"]], []⟩], []) := rfl

/-- C5, failing input: with `history_years = 0` the window is empty and
`min(hist_window)` raises `ValueError` while processing the first patient
that has any candidate year; the run is not rejected at the configuration
boundary and does not return empty outputs. -/
theorem C5_nonpositive_history_valueerror :
    build_yearly_sequences isoYear [⟨"P", "2018-01-01", "A"⟩] [] 0 2015 2020 2018 2019 =
      .error "ValueError: min() arg is an empty sequence" := rfl

/-! ## Concrete witness data

The scenario of the spec: patient `P` with events in 2018 (`X`), 2019 (`Y`)
and 2020 (`Z`), vocabulary containing only `Z`, `H = 2`,
`min_year = 2017`, `max_year = 2025`, split cutoffs 2018 and 2019. -/

def wEvents : List Event :=
  [⟨"P", "2018-01-01", "X"⟩, ⟨"P", "2019-01-01", "Y"⟩, ⟨"P", "2020-01-01", "Z"⟩]

def wVocab : List (String × Nat) := [("Z", 0)]

def wRow1 : Row := ⟨"P", 2019, [2017, 2018], [[], ["X"]], [0]⟩

def wRow2 : Row := ⟨"P", 2020, [2018, 2019], [["X"], ["Y"]], [1]⟩

theorem wEvents_emitted :
    emittedRows isoYear wEvents wVocab 2 2017 2025 = .ok [wRow1, wRow2] := rfl

theorem C1_witness :
    (∃ r ∈ [wRow1, wRow2], r.patient_id = "P" ∧ r.target_year = 2020) ↔
      (2017 : Int) ≤ 2020 - 2 :=
  (C1_window_contiguity isoYear wEvents wVocab 2 2017 2025 [wRow1, wRow2]
    (by decide) wEvents_emitted).1 "P" 2020 (by decide)

theorem C2_witness :
    wRow1 ∈ [wRow1] ↔ wRow1 ∈ [wRow1, wRow2] ∧ (2018 : Int) < wRow1.target_year ∧
      wRow1.target_year ≤ 2019 :=
  (C2_split_partition isoYear wEvents wVocab 2 2017 2025 2018 2019
    [wRow1, wRow2] [] [wRow1] [wRow2] (by decide) wEvents_emitted (by rfl)).2.1 wRow1

theorem C3_witness :
    wRow2.target_multi_hot.get ⟨0, by decide⟩ = 1 ↔
      ∃ c, vocabIdx wVocab c = some 0 ∧
        ∃ e ∈ deriveEvents isoYear wEvents 2017 2025,
          e.patient_id = wRow2.patient_id ∧ e.year = wRow2.target_year ∧
          e.code_norm = c :=
  ((C3_multi_hot_correct isoYear wEvents wVocab 2 2017 2025 [wRow1, wRow2]
    wEvents_emitted).1 wRow2 (by decide)).2 0 (by decide)

theorem C6_witness :
    ∃ e ∈ deriveEvents isoYear wEvents 2017 2025,
      e.patient_id = wRow2.patient_id ∧ e.code_norm = "X" ∧
      e.year = wRow2.hist_years.get ⟨0, by decide⟩ ∧
      wRow2.target_year - 2 ≤ e.year ∧ e.year < wRow2.target_year :=
  ((C6_no_future_leakage isoYear wEvents wVocab 2 2017 2025 [wRow1, wRow2]
    wEvents_emitted) wRow2 (by decide)).2 0 (by decide) (by decide) "X" (by decide)

theorem C7_witness :
    (("A", 0) : String × Nat).2 ≠ (("B", 1) : String × Nat).2 ∧
      1 ≤ distinctPatientCount
        [⟨"p1", "2020-01-01", "A"⟩, ⟨"p2", "2020-02-01", "A"⟩, ⟨"p1", "2020-03-01", "B"⟩]
        "A" :=
  ⟨(C7_vocab_wellformed
      [⟨"p1", "2020-01-01", "A"⟩, ⟨"p2", "2020-02-01", "A"⟩, ⟨"p1", "2020-03-01", "B"⟩]
      1 none).1 ("A", 0) (by decide) ("B", 1) (by decide) (by decide),
   (C7_vocab_wellformed
      [⟨"p1", "2020-01-01", "A"⟩, ⟨"p2", "2020-02-01", "A"⟩, ⟨"p1", "2020-03-01", "B"⟩]
      1 none).2.2.2 ("A", 0) (by decide)⟩

theorem C8_witness :
    "X" ∈ wRow2.hist_codes.get ⟨0, by decide⟩ :=
  ((C8_history_unfiltered isoYear wEvents wVocab 2 2017 2025 [wRow1, wRow2] "X"
    wEvents_emitted (by decide)) wRow2 (by decide)).1 ⟨"P", 2018, "X"⟩ (by decide)
    (by decide) (by decide) 0 (by decide) (by decide) (by decide)

end MedSeq
